import Mathlib

/-!
Verification of the CIGAR coordinate-translation core of the repository
(src/genetic_coordinates/cigar_translate.py).

The embedding models Python strings as lists of characters, Python integers
as `Int` (operator lengths, which are parsed from digit runs, as `Nat`), and
the fallible translator as a function into `Option Int`.
-/

/-- The nine CIGAR operator codes recognized by the parser regex
`[0-9]+[MIDNSHP=X]`. -/
def opCodes : List Char := ['M', 'I', 'D', 'N', 'S', 'H', 'P', '=', 'X']

/-- Numeric value of a decimal digit character. -/
def digitVal (c : Char) : Nat := c.toNat - 48

/-- Integer value of a run of decimal digit characters, most significant
first (Python's `int` applied to the digit run). -/
def digitsToNat (run : List Char) : Nat :=
  run.foldl (fun acc c => 10 * acc + digitVal c) 0

/-- Left-to-right scanner equivalent to `re.findall(r'[0-9]+[MIDNSHP=X]', s)`
followed by splitting each match into its integer value and its final
operator character.  The first argument is the scanner state: `none` when not
inside a digit run, `some v` when inside a digit run whose value so far is
`v`.  A digit extends the current run; an operator code directly after a
digit run closes a match; any other character aborts the current run. -/
def scan : Option Nat → List Char → List (Nat × Char)
  | _, [] => []
  | none, c :: rest =>
      if c.isDigit then scan (some (digitVal c)) rest else scan none rest
  | some v, c :: rest =>
      if c.isDigit then scan (some (10 * v + digitVal c)) rest
      else if c ∈ opCodes then (v, c) :: scan none rest
      else scan none rest

/-- Source function `cigar_to_operators`: isolate individual CIGAR operators
and their numeric values. -/
def cigar_to_operators (cigar : List Char) : List (Nat × Char) :=
  scan none cigar

/-- Source function `get_length`: sum of operator lengths over operators whose
code is not in `['D', 'N', 'H', 'P']`. -/
def get_length (cigar : List Char) : Nat :=
  (((cigar_to_operators cigar).filter
      (fun o => decide (o.2 ∉ (['D', 'N', 'H', 'P'] : List Char)))).map Prod.fst).sum

/-- The loop body of `make_index_map` from the source, with the two running
counters `ref_size` and `trans_size` made explicit arguments. -/
def make_index_map_aux : List (Nat × Char) → Int → Int → List (Int × Int)
  | [], _, _ => []
  | (size, code) :: rest, ref_size, trans_size =>
      if code ∈ (['M', '=', 'X'] : List Char) then
        make_index_map_aux rest (ref_size + size) (trans_size + size)
      else if code ∈ (['D', 'N'] : List Char) then
        (trans_size - 1, (size : Int)) :: make_index_map_aux rest (ref_size + size) trans_size
      else if code ∈ (['I', 'S'] : List Char) then
        (trans_size - 1, -(size : Int)) :: make_index_map_aux rest ref_size (trans_size + size)
      else make_index_map_aux rest ref_size trans_size

/-- Source function `make_index_map`: both counters start at 0. -/
def make_index_map (cigar : List Char) : List (Int × Int) :=
  make_index_map_aux (cigar_to_operators cigar) 0 0

/-- Source function `translate_coordinate`.  Returns `none` exactly where the
Python function returns `None`. -/
def translate_coordinate (coordinate_query : Int) (index_map : List (Int × Int))
    (ref_start : Int) (transcript_length : Int) : Option Int :=
  if transcript_length ≤ coordinate_query ∨ coordinate_query < 0 then none
  else
    let mapped_adjusts := index_map.filter (fun a => decide (a.1 < coordinate_query))
    let ref_coord := ref_start + coordinate_query + (mapped_adjusts.map Prod.snd).sum
    match mapped_adjusts.getLast? with
    | some last =>
        if last.2 < 0 then
          if 0 < last.1 - coordinate_query - last.2 then
            some (ref_coord + (last.1 - coordinate_query - last.2))
          else some ref_coord
        else some ref_coord
    | none => some ref_coord

/-! ### Proof infrastructure -/

/-- Transcript length of an operator list as an integer; a recursive
restatement of the sum computed by `get_length`. -/
def tlenI : List (Nat × Char) → Int
  | [] => 0
  | (s, c) :: rest =>
      (if c ∈ (['D', 'N', 'H', 'P'] : List Char) then 0 else (s : Int)) + tlenI rest

/-- The in-range branch of `translate_coordinate`, as a total function. -/
def core (q : Int) (index_map : List (Int × Int)) (ref_start : Int) : Int :=
  match (index_map.filter (fun a => decide (a.1 < q))).getLast? with
  | some last =>
      if last.2 < 0 then
        if 0 < last.1 - q - last.2 then
          ref_start + q + ((index_map.filter (fun a => decide (a.1 < q))).map Prod.snd).sum
            + (last.1 - q - last.2)
        else ref_start + q + ((index_map.filter (fun a => decide (a.1 < q))).map Prod.snd).sum
      else ref_start + q + ((index_map.filter (fun a => decide (a.1 < q))).map Prod.snd).sum
  | none => ref_start + q + ((index_map.filter (fun a => decide (a.1 < q))).map Prod.snd).sum

/-- Direct left-aligned semantics of an operator list: `sem ops r q` walks the
operators with current reference coordinate `r` and answers the reference
coordinate of the transcript position `q` positions into the remaining
operators.  Match bases map one-to-one, deletions advance the reference only,
and every position inside an insertion maps to `r - 1`, the reference
position of the closest upstream transcript base. -/
def sem : List (Nat × Char) → Int → Int → Option Int
  | [], _, _ => none
  | (s, c) :: rest, r, q =>
      if c ∈ (['M', '=', 'X'] : List Char) then
        if q < (s : Int) then some (r + q) else sem rest (r + s) (q - s)
      else if c ∈ (['D', 'N'] : List Char) then sem rest (r + s) q
      else if c ∈ (['I', 'S'] : List Char) then
        if q < (s : Int) then some (r - 1) else sem rest r (q - s)
      else sem rest r q

/-- Definition following the words of the specification for the index-map
builder (claim C4): process the parsed operators left to right with counters
`ref_size = 0` and `trans_size = 0`; `M`, `=` and `X` advance both counters
and emit nothing; `D` and `N` advance `ref_size` and emit
`(trans_size - 1, +length)`; `I` and `S` emit `(trans_size - 1, -length)` and
then advance `trans_size`; `H` and `P` move no counter and emit no entry; the
output is the emitted entries in emission order. -/
def index_map_spec : List (Nat × Char) → Int → Int → List (Int × Int)
  | [], _, _ => []
  | (length, code) :: rest, ref_size, trans_size =>
      if code = 'M' ∨ code = '=' ∨ code = 'X' then
        index_map_spec rest (ref_size + length) (trans_size + length)
      else if code = 'D' ∨ code = 'N' then
        (trans_size - 1, (length : Int)) :: index_map_spec rest (ref_size + length) trans_size
      else if code = 'I' ∨ code = 'S' then
        (trans_size - 1, -(length : Int)) :: index_map_spec rest ref_size (trans_size + length)
      else
        index_map_spec rest ref_size trans_size

/-- Value of a digit run continued from an already accumulated value `v`. -/
def digitsFold (v : Nat) (run : List Char) : Nat :=
  run.foldl (fun acc c => 10 * acc + digitVal c) v

/-- Definition following the words of the specification for the parser
(claim C7): walking left to right, every maximal run of digits
(`c :: rest.takeWhile Char.isDigit` below) that is immediately followed by an
operator code yields one (value, code) pair; every other character — garbage,
an unrecognized code, or a digit run not followed by a code — is skipped. -/
def specExtract (s : List Char) : List (Nat × Char) :=
  match s with
  | [] => []
  | c :: rest =>
      if c.isDigit then
        (match (rest.dropWhile Char.isDigit).head? with
         | some op =>
             if op ∈ opCodes then
               [(digitsToNat (c :: rest.takeWhile Char.isDigit), op)]
             else []
         | none => []) ++ specExtract ((rest.dropWhile Char.isDigit).tail)
      else specExtract rest
termination_by s.length
decreasing_by
  · have h1 : ((rest.dropWhile Char.isDigit).tail).length ≤
        (rest.dropWhile Char.isDigit).length := by
      cases rest.dropWhile Char.isDigit <;> simp
    have h2 : (rest.dropWhile Char.isDigit).length ≤ rest.length :=
      (List.dropWhile_sublist Char.isDigit).length_le
    simp only [List.length_cons]
    omega
  · simp only [List.length_cons]
    omega

theorem tlenI_nonneg (ops : List (Nat × Char)) : 0 ≤ tlenI ops := by
  induction ops with
  | nil => simp [tlenI]
  | cons hd rest ih =>
      obtain ⟨s, c⟩ := hd
      have hs : (0 : Int) ≤ (s : Int) := Int.natCast_nonneg s
      simp only [tlenI]
      split_ifs <;> omega

theorem get_length_eq_tlenI (cigar : List Char) :
    (get_length cigar : Int) = tlenI (cigar_to_operators cigar) := by
  suffices h : ∀ ops : List (Nat × Char),
      (((((ops.filter
          (fun o => decide (o.2 ∉ (['D', 'N', 'H', 'P'] : List Char)))).map Prod.fst).sum :
        Nat) : Int) = tlenI ops) from h _
  intro ops
  induction ops with
  | nil => simp [tlenI]
  | cons hd rest ih =>
      obtain ⟨s, c⟩ := hd
      rw [List.filter_cons]
      split_ifs with h
      · have hc : c ∉ (['D', 'N', 'H', 'P'] : List Char) := by simpa using h
        rw [List.map_cons, List.sum_cons]
        simp only [tlenI, if_neg hc]
        push_cast at ih ⊢
        omega
      · have hc : c ∈ (['D', 'N', 'H', 'P'] : List Char) := by
          simp only [decide_eq_true_eq] at h
          exact not_not.mp h
        simp only [tlenI, if_pos hc]
        omega

theorem translate_eq_core (q : Int) (im : List (Int × Int)) (rs L : Int)
    (h0 : 0 ≤ q) (hL : q < L) :
    translate_coordinate q im rs L = some (core q im rs) := by
  have h : ¬(L ≤ q ∨ q < 0) := by omega
  cases hl : (im.filter (fun a => decide (a.1 < q))).getLast? with
  | none => simp only [translate_coordinate, core, if_neg h, hl]
  | some last =>
      simp only [translate_coordinate, core, if_neg h, hl]
      split_ifs <;> rfl

/-- Every anchor produced by the index-map loop at transcript counter `t0`
is at least `t0 - 1`. -/
theorem mima_anchor_lb (ops : List (Nat × Char)) :
    ∀ (refsz t0 : Int), ∀ e ∈ make_index_map_aux ops refsz t0, t0 - 1 ≤ e.1 := by
  induction ops with
  | nil => intro _ _ e he; simp [make_index_map_aux] at he
  | cons hd rest ih =>
      obtain ⟨s, c⟩ := hd
      intro refsz t0 e he
      have hs : (0 : Int) ≤ (s : Int) := Int.natCast_nonneg s
      simp only [make_index_map_aux] at he
      split_ifs at he with h1 h2 h3
      · have := ih (refsz + s) (t0 + s) e he
        omega
      · rcases List.mem_cons.mp he with rfl | he'
        · exact le_refl _
        · exact ih (refsz + s) t0 e he'
      · rcases List.mem_cons.mp he with rfl | he'
        · exact le_refl _
        · have := ih refsz (t0 + s) e he'
          omega
      · exact ih refsz t0 e he

/-- The index-map loop emits entries with non-decreasing anchors. -/
theorem mima_pairwise (ops : List (Nat × Char)) :
    ∀ (refsz t0 : Int),
      List.Pairwise (fun x y => x.1 ≤ y.1) (make_index_map_aux ops refsz t0) := by
  induction ops with
  | nil => intro _ _; simp [make_index_map_aux]
  | cons hd rest ih =>
      obtain ⟨s, c⟩ := hd
      intro refsz t0
      have hs : (0 : Int) ≤ (s : Int) := Int.natCast_nonneg s
      simp only [make_index_map_aux]
      split_ifs with h1 h2 h3
      · exact ih _ _
      · refine List.Pairwise.cons ?_ (ih _ _)
        intro e he
        have h := mima_anchor_lb rest (refsz + s) t0 e he
        exact le_trans (by omega) h
      · refine List.Pairwise.cons ?_ (ih _ _)
        intro e he
        have h := mima_anchor_lb rest refsz (t0 + s) e he
        exact le_trans (by omega) h
      · exact ih _ _

/-- When no index-map entry is selected the core computation is
`ref_start + q`. -/
theorem core_empty (q : Int) (im : List (Int × Int)) (rs : Int)
    (h : im.filter (fun a => decide (a.1 < q)) = []) : core q im rs = rs + q := by
  unfold core
  rw [h]
  simp

/-- Entries of the index-map loop are invisible to queries at or below
`t0 - 1`. -/
theorem mima_filter_empty (ops : List (Nat × Char)) (refsz t0 q : Int)
    (hq : q ≤ t0 - 1) :
    (make_index_map_aux ops refsz t0).filter (fun a => decide (a.1 < q)) = [] := by
  rw [List.filter_eq_nil_iff]
  intro a ha
  have h := mima_anchor_lb ops refsz t0 a ha
  simp only [decide_eq_true_eq]
  omega

/-- Peeling a selected head entry off the index map turns its adjustment into
a shift of `ref_start`, provided the head's own correction cannot fire while
it is the last selected entry. -/
theorem core_cons (q : Int) (e : Int × Int) (im : List (Int × Int)) (rs : Int)
    (hq : e.1 < q)
    (hnf : im.filter (fun a => decide (a.1 < q)) = [] →
      ¬(e.2 < 0 ∧ 0 < e.1 - q - e.2)) :
    core q (e :: im) rs = core q im (rs + e.2) := by
  unfold core
  rw [List.filter_cons, if_pos (by simpa using hq)]
  cases hF : im.filter (fun a => decide (a.1 < q)) with
  | nil =>
      have hn := hnf hF
      simp only [List.getLast?_singleton, List.getLast?_nil, List.map_cons, List.map_nil,
        List.sum_cons, List.sum_nil]
      split_ifs with h1 h2
      · exact absurd ⟨h1, h2⟩ hn
      · ring
      · ring
  | cons f fs =>
      rw [List.getLast?_cons_cons]
      have hl : (f :: fs).getLast? = some ((f :: fs).getLast (by simp)) :=
        List.getLast?_eq_getLast _ _
      rw [hl]
      simp only [List.map_cons, List.sum_cons]
      split_ifs <;> ring

/-- Bridge: on operator lists made of recognized codes, the in-range branch of
`translate_coordinate` over the generated index map agrees with the direct
left-aligned semantics `sem`. -/
theorem sem_bridge (ops : List (Nat × Char)) :
    ∀ (refsz t0 rs q : Int),
      (∀ p ∈ ops, p.2 ∈ opCodes) →
      t0 ≤ q → q < t0 + tlenI ops →
      sem ops (rs + t0) (q - t0) = some (core q (make_index_map_aux ops refsz t0) rs) := by
  induction ops with
  | nil =>
      intro refsz t0 rs q _ h1 h2
      have : False := by simp [tlenI] at h2; omega
      exact this.elim
  | cons hd rest ih =>
      obtain ⟨s, c⟩ := hd
      intro refsz t0 rs q hcodes h1 h2
      have hs : (0 : Int) ≤ (s : Int) := Int.natCast_nonneg s
      have hcrest : ∀ p ∈ rest, p.2 ∈ opCodes :=
        fun p hp => hcodes p (List.mem_cons_of_mem _ hp)
      have hc : c ∈ opCodes := hcodes (s, c) (List.mem_cons_self _ _)
      by_cases hM : c ∈ (['M', '=', 'X'] : List Char)
      · have hDNHP : c ∉ (['D', 'N', 'H', 'P'] : List Char) := by
          fin_cases hM <;> decide
        simp only [sem, if_pos hM]
        simp only [make_index_map_aux, if_pos hM]
        simp only [tlenI] at h2
        rw [if_neg hDNHP] at h2
        by_cases hq : q < t0 + s
        · rw [if_pos (by omega : q - t0 < (s : Int))]
          rw [core_empty _ _ _ (mima_filter_empty rest (refsz + s) (t0 + s) q (by omega))]
          congr 1
          ring
        · rw [if_neg (by omega : ¬(q - t0 < (s : Int)))]
          rw [show q - t0 - (s : Int) = q - (t0 + s) by ring,
            show rs + t0 + (s : Int) = rs + (t0 + s) by ring]
          exact ih (refsz + s) (t0 + s) rs q hcrest (by omega) (by omega)
      · by_cases hD : c ∈ (['D', 'N'] : List Char)
        · have hDNHP : c ∈ (['D', 'N', 'H', 'P'] : List Char) := by
            fin_cases hD <;> decide
          simp only [sem, if_neg hM, if_pos hD]
          simp only [make_index_map_aux, if_neg hM, if_pos hD]
          simp only [tlenI] at h2
          rw [if_pos hDNHP] at h2
          rw [core_cons q (t0 - 1, (s : Int)) _ rs (by simp; omega)
            (fun _ => by rintro ⟨hlt, -⟩; simp at hlt; omega)]
          rw [show rs + t0 + (s : Int) = (rs + (s : Int)) + t0 by ring]
          exact ih (refsz + s) t0 (rs + s) q hcrest h1 (by omega)
        · by_cases hI : c ∈ (['I', 'S'] : List Char)
          · have hDNHP : c ∉ (['D', 'N', 'H', 'P'] : List Char) := by
              fin_cases hI <;> decide
            simp only [sem, if_neg hM, if_neg hD, if_pos hI]
            simp only [make_index_map_aux, if_neg hM, if_neg hD, if_pos hI]
            simp only [tlenI] at h2
            rw [if_neg hDNHP] at h2
            by_cases hq : q < t0 + s
            · rw [if_pos (by omega : q - t0 < (s : Int))]
              have hspos : (0 : Int) < (s : Int) := by omega
              have hcore : core q
                  ((t0 - 1, -(s : Int)) :: make_index_map_aux rest refsz (t0 + s)) rs =
                  rs + t0 - 1 := by
                unfold core
                rw [List.filter_cons, if_pos (by simp; omega),
                  mima_filter_empty rest refsz (t0 + s) q (by omega)]
                simp only [List.getLast?_singleton, List.map_cons, List.map_nil,
                  List.sum_cons, List.sum_nil]
                rw [if_pos (by simp; omega)]
                by_cases hd : 0 < (t0 - 1) - q - (-(s : Int))
                · rw [if_pos (by omega)]
                  omega
                · rw [if_neg (by omega)]
                  omega
              rw [hcore]
            · rw [if_neg (by omega : ¬(q - t0 < (s : Int)))]
              rw [core_cons q (t0 - 1, -(s : Int)) _ rs (by dsimp only; omega)
                (fun _ => by rintro ⟨-, hgt⟩; dsimp only at hgt; omega)]
              rw [show q - t0 - (s : Int) = q - (t0 + s) by ring,
                show rs + t0 = (rs + (t0 - 1, -(s : Int)).2) + (t0 + s) by dsimp only; ring]
              exact ih refsz (t0 + s) (rs + (t0 - 1, -(s : Int)).2) q hcrest
                (by omega) (by omega)
          · have hDNHP : c ∈ (['D', 'N', 'H', 'P'] : List Char) := by
              fin_cases hc <;> simp_all
            simp only [sem, if_neg hM, if_neg hD, if_neg hI]
            simp only [make_index_map_aux, if_neg hM, if_neg hD, if_neg hI]
            simp only [tlenI] at h2
            rw [if_pos hDNHP] at h2
            exact ih refsz t0 rs q hcrest h1 (by omega)

/-- Every operator emitted by the scanner carries one of the nine recognized
codes. -/
theorem scan_codes (s : List Char) :
    ∀ (m : Option Nat) (p : Nat × Char), p ∈ scan m s → p.2 ∈ opCodes := by
  induction s with
  | nil => intro m p hp; cases m <;> simp [scan] at hp
  | cons c rest ih =>
      intro m p hp
      cases m with
      | none =>
          simp only [scan] at hp
          split_ifs at hp
          · exact ih _ p hp
          · exact ih _ p hp
      | some v =>
          simp only [scan] at hp
          split_ifs at hp with h1 h2
          · exact ih _ p hp
          · rcases List.mem_cons.mp hp with rfl | hp'
            · exact h2
            · exact ih _ p hp'
          · exact ih _ p hp

/-- Bridge specialized to a whole CIGAR string. -/
theorem sem_bridge_cigar (cigar : List Char) (rs q : Int)
    (h1 : 0 ≤ q) (h2 : q < (get_length cigar : Int)) :
    sem (cigar_to_operators cigar) rs q = some (core q (make_index_map cigar) rs) := by
  have hL := get_length_eq_tlenI cigar
  have hb := sem_bridge (cigar_to_operators cigar) 0 0 rs q
    (fun p hp => scan_codes cigar none p hp) (by omega) (by omega)
  rw [add_zero, sub_zero] at hb
  simp only [make_index_map]
  exact hb

/-- Every answer of `sem` is at least `r - 1`. -/
theorem sem_lb (ops : List (Nat × Char)) :
    ∀ (r q v : Int), 0 ≤ q → sem ops r q = some v → r - 1 ≤ v := by
  induction ops with
  | nil => intro r q v _ h; simp [sem] at h
  | cons hd rest ih =>
      obtain ⟨s, c⟩ := hd
      intro r q v hq h
      have hs : (0 : Int) ≤ (s : Int) := Int.natCast_nonneg s
      simp only [sem] at h
      by_cases hM : c ∈ (['M', '=', 'X'] : List Char)
      · rw [if_pos hM] at h
        by_cases hql : q < (s : Int)
        · rw [if_pos hql] at h
          simp only [Option.some.injEq] at h
          omega
        · rw [if_neg hql] at h
          have := ih (r + s) (q - s) v (by omega) h
          omega
      · rw [if_neg hM] at h
        by_cases hD : c ∈ (['D', 'N'] : List Char)
        · rw [if_pos hD] at h
          have := ih (r + s) q v hq h
          omega
        · rw [if_neg hD] at h
          by_cases hI : c ∈ (['I', 'S'] : List Char)
          · rw [if_pos hI] at h
            by_cases hql : q < (s : Int)
            · rw [if_pos hql] at h
              simp only [Option.some.injEq] at h
              omega
            · rw [if_neg hql] at h
              have := ih r (q - s) v (by omega) h
              omega
          · rw [if_neg hI] at h
            exact ih r q v hq h

/-- The direct semantics is monotone in the query. -/
theorem sem_mono (ops : List (Nat × Char)) :
    ∀ (r q1 q2 v1 v2 : Int), 0 ≤ q1 → q1 ≤ q2 →
      sem ops r q1 = some v1 → sem ops r q2 = some v2 → v1 ≤ v2 := by
  induction ops with
  | nil => intro r q1 q2 v1 v2 _ _ h1 _; simp [sem] at h1
  | cons hd rest ih =>
      obtain ⟨s, c⟩ := hd
      intro r q1 q2 v1 v2 h0 h12 h1 h2
      have hs : (0 : Int) ≤ (s : Int) := Int.natCast_nonneg s
      simp only [sem] at h1 h2
      by_cases hM : c ∈ (['M', '=', 'X'] : List Char)
      · rw [if_pos hM] at h1 h2
        by_cases hq2 : q2 < (s : Int)
        · rw [if_pos hq2] at h2
          rw [if_pos (by omega)] at h1
          simp only [Option.some.injEq] at h1 h2
          omega
        · rw [if_neg hq2] at h2
          by_cases hq1 : q1 < (s : Int)
          · rw [if_pos hq1] at h1
            simp only [Option.some.injEq] at h1
            have := sem_lb rest (r + s) (q2 - s) v2 (by omega) h2
            omega
          · rw [if_neg hq1] at h1
            exact ih (r + s) (q1 - s) (q2 - s) v1 v2 (by omega) (by omega) h1 h2
      · rw [if_neg hM] at h1 h2
        by_cases hD : c ∈ (['D', 'N'] : List Char)
        · rw [if_pos hD] at h1 h2
          exact ih (r + s) q1 q2 v1 v2 h0 h12 h1 h2
        · rw [if_neg hD] at h1 h2
          by_cases hI : c ∈ (['I', 'S'] : List Char)
          · rw [if_pos hI] at h1 h2
            by_cases hq2 : q2 < (s : Int)
            · rw [if_pos hq2] at h2
              rw [if_pos (by omega)] at h1
              simp only [Option.some.injEq] at h1 h2
              omega
            · rw [if_neg hq2] at h2
              by_cases hq1 : q1 < (s : Int)
              · rw [if_pos hq1] at h1
                simp only [Option.some.injEq] at h1
                have := sem_lb rest r (q2 - s) v2 (by omega) h2
                omega
              · rw [if_neg hq1] at h1
                exact ih r (q1 - s) (q2 - s) v1 v2 (by omega) (by omega) h1 h2
          · rw [if_neg hI] at h1 h2
            exact ih r q1 q2 v1 v2 h0 h12 h1 h2

/-- A query inside an insertion whose entry is anchored at `t0 - 1` (the
insertion starts before any later transcript advance) answers `r - 1`,
provided no other entry shares that anchor. -/
theorem sem_ins_front (ops : List (Nat × Char)) :
    ∀ (refsz t0 r b q : Int),
      (t0 - 1, b) ∈ make_index_map_aux ops refsz t0 →
      b < 0 →
      (∀ b', (t0 - 1, b') ∈ make_index_map_aux ops refsz t0 → b' = b) →
      t0 ≤ q → q ≤ t0 - 1 - b →
      sem ops r (q - t0) = some (r - 1) := by
  induction ops with
  | nil => intro refsz t0 r b q hmem _ _ _ _; simp [make_index_map_aux] at hmem
  | cons hd rest ih =>
      obtain ⟨s, c⟩ := hd
      intro refsz t0 r b q hmem hb huniq h1 h2
      have hs : (0 : Int) ≤ (s : Int) := Int.natCast_nonneg s
      by_cases hM : c ∈ (['M', '=', 'X'] : List Char)
      · simp only [make_index_map_aux, if_pos hM] at hmem huniq
        simp only [sem, if_pos hM]
        have hlb : t0 + (s : Int) - 1 ≤ t0 - 1 :=
          mima_anchor_lb rest (refsz + s) (t0 + s) (t0 - 1, b) hmem
        have hs0 : (s : Int) = 0 := by omega
        rw [if_neg (by omega : ¬(q - t0 < (s : Int)))]
        rw [hs0, add_zero, sub_zero]
        rw [hs0] at hmem huniq
        simp only [add_zero] at hmem huniq
        exact ih refsz t0 r b q hmem hb huniq h1 h2
      · by_cases hD : c ∈ (['D', 'N'] : List Char)
        · simp only [make_index_map_aux, if_neg hM, if_pos hD] at huniq
          have hcontra : (s : Int) = b := huniq (s : Int) (List.mem_cons_self _ _)
          exact absurd hcontra (by omega)
        · by_cases hI : c ∈ (['I', 'S'] : List Char)
          · simp only [make_index_map_aux, if_neg hM, if_neg hD, if_pos hI] at hmem huniq
            simp only [sem, if_neg hM, if_neg hD, if_pos hI]
            by_cases hs0 : (s : Int) = 0
            · rw [if_neg (by omega : ¬(q - t0 < (s : Int)))]
              rw [hs0, sub_zero]
              rcases List.mem_cons.mp hmem with heq | hmem'
              · have hbs : b = -(s : Int) := congrArg Prod.snd heq
                exact absurd hbs (by omega)
              · rw [hs0, add_zero] at hmem' huniq
                exact ih refsz t0 r b q hmem' hb
                  (fun b' h' => huniq b' (List.mem_cons_of_mem _ h')) h1 h2
            · have hspos : (0 : Int) < (s : Int) := by omega
              rcases List.mem_cons.mp hmem with heq | hmem'
              · have hbs : b = -(s : Int) := congrArg Prod.snd heq
                rw [if_pos (by omega : q - t0 < (s : Int))]
              · have hlb : t0 + (s : Int) - 1 ≤ t0 - 1 :=
                  mima_anchor_lb rest refsz (t0 + s) (t0 - 1, b) hmem'
                exact absurd hlb (by omega)
          · simp only [make_index_map_aux, if_neg hM, if_neg hD, if_neg hI] at hmem huniq
            simp only [sem, if_neg hM, if_neg hD, if_neg hI]
            exact ih refsz t0 r b q hmem hb huniq h1 h2

/-- Two queries that fall at the anchor of an insertion entry and strictly
inside its span answer the same reference coordinate, provided no other
index-map entry shares the anchor. -/
theorem sem_ins_span (ops : List (Nat × Char)) :
    ∀ (refsz t0 r a b q : Int),
      (a, b) ∈ make_index_map_aux ops refsz t0 →
      b < 0 →
      (∀ b', (a, b') ∈ make_index_map_aux ops refsz t0 → b' = b) →
      t0 ≤ a → a < q → q ≤ a - b →
      sem ops r (q - t0) = sem ops r (a - t0) := by
  induction ops with
  | nil => intro refsz t0 r a b q hmem _ _ _ _ _; simp [make_index_map_aux] at hmem
  | cons hd rest ih =>
      obtain ⟨s, c⟩ := hd
      intro refsz t0 r a b q hmem hb huniq ht0a haq hspan
      have hs : (0 : Int) ≤ (s : Int) := Int.natCast_nonneg s
      by_cases hM : c ∈ (['M', '=', 'X'] : List Char)
      · simp only [make_index_map_aux, if_pos hM] at hmem huniq
        simp only [sem, if_pos hM]
        have hlb : t0 + (s : Int) - 1 ≤ a :=
          mima_anchor_lb rest (refsz + s) (t0 + s) (a, b) hmem
        by_cases hge : t0 + (s : Int) ≤ a
        · rw [if_neg (by omega : ¬(q - t0 < (s : Int))),
            if_neg (by omega : ¬(a - t0 < (s : Int)))]
          rw [show q - t0 - (s : Int) = q - (t0 + s) by ring,
            show a - t0 - (s : Int) = a - (t0 + s) by ring]
          exact ih (refsz + s) (t0 + s) (r + s) a b q hmem hb huniq (by omega) haq hspan
        · have ha : a = t0 + (s : Int) - 1 := by omega
          have hspos : (0 : Int) < (s : Int) := by omega
          rw [if_pos (by omega : a - t0 < (s : Int))]
          rw [if_neg (by omega : ¬(q - t0 < (s : Int)))]
          rw [ha] at hmem huniq
          have hfront := sem_ins_front rest (refsz + s) (t0 + s) (r + s) b q hmem hb
            huniq (by omega) (by omega)
          rw [show q - t0 - (s : Int) = q - (t0 + s) by ring, hfront]
          congr 1
          omega
      · by_cases hD : c ∈ (['D', 'N'] : List Char)
        · simp only [make_index_map_aux, if_neg hM, if_pos hD] at hmem huniq
          simp only [sem, if_neg hM, if_pos hD]
          rcases List.mem_cons.mp hmem with heq | hmem'
          · have hat : a = t0 - 1 := congrArg Prod.fst heq
            exact absurd hat (by omega)
          · exact ih (refsz + s) t0 (r + s) a b q hmem' hb
              (fun b' h' => huniq b' (List.mem_cons_of_mem _ h')) ht0a haq hspan
        · by_cases hI : c ∈ (['I', 'S'] : List Char)
          · simp only [make_index_map_aux, if_neg hM, if_neg hD, if_pos hI] at hmem huniq
            simp only [sem, if_neg hM, if_neg hD, if_pos hI]
            rcases List.mem_cons.mp hmem with heq | hmem'
            · have hat : a = t0 - 1 := congrArg Prod.fst heq
              exact absurd hat (by omega)
            · have hlb : t0 + (s : Int) - 1 ≤ a :=
                mima_anchor_lb rest refsz (t0 + s) (a, b) hmem'
              have huniq' : ∀ b', (a, b') ∈ make_index_map_aux rest refsz (t0 + s) → b' = b :=
                fun b' h' => huniq b' (List.mem_cons_of_mem _ h')
              by_cases hge : t0 + (s : Int) ≤ a
              · rw [if_neg (by omega : ¬(q - t0 < (s : Int))),
                  if_neg (by omega : ¬(a - t0 < (s : Int)))]
                rw [show q - t0 - (s : Int) = q - (t0 + s) by ring,
                  show a - t0 - (s : Int) = a - (t0 + s) by ring]
                exact ih refsz (t0 + s) r a b q hmem' hb huniq' (by omega) haq hspan
              · have ha : a = t0 + (s : Int) - 1 := by omega
                have hspos : (0 : Int) < (s : Int) := by omega
                rw [if_pos (by omega : a - t0 < (s : Int))]
                rw [if_neg (by omega : ¬(q - t0 < (s : Int)))]
                rw [ha] at hmem' huniq'
                have hfront := sem_ins_front rest refsz (t0 + s) r b q hmem' hb
                  huniq' (by omega) (by omega)
                rw [show q - t0 - (s : Int) = q - (t0 + s) by ring, hfront]
          · simp only [make_index_map_aux, if_neg hM, if_neg hD, if_neg hI] at hmem huniq
            simp only [sem, if_neg hM, if_neg hD, if_neg hI]
            exact ih refsz t0 r a b q hmem hb huniq ht0a haq hspan

/-- Strings without operator-code characters scan to the empty operator
list from any scanner state. -/
theorem scan_of_no_opcode (g : List Char) :
    (∀ ch ∈ g, ch ∉ opCodes) → ∀ m, scan m g = [] := by
  induction g with
  | nil => intro _ m; cases m <;> rfl
  | cons c rest ih =>
      intro hg m
      have hc : c ∉ opCodes := hg c (List.mem_cons_self _ _)
      have hrest : ∀ ch ∈ rest, ch ∉ opCodes :=
        fun ch h => hg ch (List.mem_cons_of_mem _ h)
      cases m with
      | none =>
          simp only [scan]
          split_ifs
          · exact ih hrest _
          · exact ih hrest _
      | some v =>
          simp only [scan]
          split_ifs with hd
          · exact ih hrest _
          · exact ih hrest _

/-- Appending characters that are not operator codes does not change the
scan, from any scanner state. -/
theorem scan_append_no_opcode (s : List Char) :
    ∀ (g : List Char), (∀ ch ∈ g, ch ∉ opCodes) → ∀ m, scan m (s ++ g) = scan m s := by
  induction s with
  | nil =>
      intro g hg m
      rw [List.nil_append, scan_of_no_opcode g hg m]
      cases m <;> rfl
  | cons c rest ih =>
      intro g hg m
      rw [List.cons_append]
      cases m with
      | none =>
          simp only [scan]
          split_ifs
          · exact ih g hg _
          · exact ih g hg _
      | some v =>
          simp only [scan]
          split_ifs with hd hop
          · exact ih g hg _
          · rw [ih g hg none]
          · exact ih g hg _

/-- Unfolding of the scanner from an in-run state: the run extends over the
maximal digit prefix; an operator code directly after it closes one match. -/
theorem scan_some_eq (s : List Char) : ∀ v : Nat,
    scan (some v) s =
      (match (s.dropWhile Char.isDigit).head? with
       | some op =>
           if op ∈ opCodes then [(digitsFold v (s.takeWhile Char.isDigit), op)] else []
       | none => []) ++ scan none ((s.dropWhile Char.isDigit).tail) := by
  induction s with
  | nil => intro v; rfl
  | cons c rest ih =>
      intro v
      by_cases hd : c.isDigit
      · simp only [scan, if_pos hd]
        rw [ih]
        rw [List.dropWhile_cons, if_pos hd, List.takeWhile_cons, if_pos hd]
        rfl
      · simp only [scan, if_neg hd]
        rw [List.dropWhile_cons, if_neg hd, List.takeWhile_cons, if_neg hd]
        by_cases hop : c ∈ opCodes
        · rw [if_pos hop]
          show (v, c) :: scan none rest =
            (if c ∈ opCodes then [(digitsFold v [], c)] else []) ++ scan none rest
          rw [if_pos hop]
          rfl
        · rw [if_neg hop]
          show scan none rest =
            (if c ∈ opCodes then [(digitsFold v [], c)] else []) ++ scan none rest
          rw [if_neg hop]
          rfl

/-- The source parser agrees with the specification-worded extractor. -/
theorem cigar_to_operators_eq_specExtract (s : List Char) :
    cigar_to_operators s = specExtract s := by
  suffices h : ∀ (n : Nat) (t : List Char), t.length ≤ n → scan none t = specExtract t from
    h s.length s le_rfl
  intro n
  induction n with
  | zero =>
      intro t ht
      have hnil : t = [] := List.length_eq_zero.mp (Nat.le_zero.mp ht)
      subst hnil
      simp [scan, specExtract]
  | succ n ih =>
      intro t ht
      cases t with
      | nil => simp [scan, specExtract]
      | cons c rest =>
          simp only [List.length_cons] at ht
          by_cases hd : c.isDigit
          · rw [show scan none (c :: rest) = scan (some (digitVal c)) rest by
              simp [scan, hd]]
            rw [scan_some_eq]
            rw [specExtract]
            rw [if_pos hd]
            have hlen : ((rest.dropWhile Char.isDigit).tail).length ≤ n := by
              have h1 : ((rest.dropWhile Char.isDigit).tail).length ≤
                  (rest.dropWhile Char.isDigit).length := by
                cases rest.dropWhile Char.isDigit <;> simp
              have h2 : (rest.dropWhile Char.isDigit).length ≤ rest.length :=
                (List.dropWhile_sublist Char.isDigit).length_le
              omega
            rw [ih _ hlen]
            have hfold : digitsFold (digitVal c) (rest.takeWhile Char.isDigit) =
                digitsToNat (c :: rest.takeWhile Char.isDigit) := by
              simp [digitsFold, digitsToNat]
            rw [hfold]
          · rw [show scan none (c :: rest) = scan none rest by simp [scan, hd]]
            rw [specExtract, if_neg hd]
            exact ih rest (by omega)

/-! ### Claims -/

/-- C1 (amended): for every in-range query `q` and every index map, when the
step-4 insertion correction does not fire — the LAST selected entry (in index
map order) has a non-negative adjustment, or its
`anchor_index - q - adjustment ≤ 0` — the result is `ref_start + q` plus the
sum of the adjustments of exactly those entries whose anchor is strictly
below `q`; in particular with an empty index map the result is
`ref_start + q`. -/
theorem claim_C1_sum_no_correction (q : Int) (im : List (Int × Int)) (rs L : Int)
    (h0 : 0 ≤ q) (hL : q < L)
    (hnf : ∀ last ∈ (im.filter (fun a => decide (a.1 < q))).getLast?,
        0 ≤ last.2 ∨ last.1 - q - last.2 ≤ 0) :
    translate_coordinate q im rs L =
      some (rs + q + ((im.filter (fun a => decide (a.1 < q))).map Prod.snd).sum) ∧
    translate_coordinate q [] rs L = some (rs + q) := by
  constructor
  · rw [translate_eq_core q im rs L h0 hL]
    have hcore : core q im rs =
        rs + q + ((im.filter (fun a => decide (a.1 < q))).map Prod.snd).sum := by
      unfold core
      split
      next last hlast =>
        have hc := hnf last (Option.mem_def.mpr hlast)
        split_ifs with hneg hdiff
        · omega
        · rfl
        · rfl
      next hlast => rfl
    rw [hcore]
  · rw [translate_eq_core q [] rs L h0 hL]
    unfold core
    simp

/-- Witness for C1 at `q = 8`, index map `[(7, 7)]`, `ref_start = 0`,
`transcript_length = 25`. -/
theorem claim_C1_witness :
    translate_coordinate 8 [((7 : Int), (7 : Int))] 0 25 =
      some (0 + 8 +
        (([((7 : Int), (7 : Int))].filter (fun a => decide (a.1 < 8))).map Prod.snd).sum) ∧
    translate_coordinate 8 [] 0 25 = some (0 + 8) := by
  refine claim_C1_sum_no_correction 8 [((7 : Int), (7 : Int))] 0 25 (by decide) (by decide) ?_
  intro last h
  have he : ([((7 : Int), (7 : Int))].filter (fun a => decide (a.1 < 8))).getLast? =
      some (7, 7) := by decide
  rw [he] at h
  simp only [Option.mem_some_iff] at h
  subst h
  left
  decide

/-- C1 counterexample: on the (unsorted) index map `[(5, 1), (0, -100)]` with
`q = 6`, `ref_start = 0`, `transcript_length = 10`, both entries are selected,
the selected entry with the LARGEST anchor is `(5, 1)` whose adjustment `1` is
non-negative, so the claim as stated predicts `0 + 6 + (1 + -100) = -93`; the
code applies the correction of the LAST entry `(0, -100)` and returns `1`. -/
theorem claim_C1_counterexample :
    ([((5 : Int), (1 : Int)), (0, -100)].filter (fun a => decide (a.1 < 6))) =
      [(5, 1), (0, -100)] ∧
    (∀ e ∈ [((5 : Int), (1 : Int)), (0, -100)].filter (fun a => decide (a.1 < 6)),
      e.1 ≤ 5) ∧
    ((5 : Int), (1 : Int)) ∈
      [((5 : Int), (1 : Int)), (0, -100)].filter (fun a => decide (a.1 < 6)) ∧
    (([((5 : Int), (1 : Int)), (0, -100)].filter
        (fun a => decide (a.1 < 6))).map Prod.snd).sum = -99 ∧
    translate_coordinate 6 [((5 : Int), (1 : Int)), (0, -100)] 0 10 = some 1 ∧
    translate_coordinate 6 [((5 : Int), (1 : Int)), (0, -100)] 0 10 ≠
      some (0 + 6 + -99) := by
  refine ⟨by decide, by decide, by decide, by decide, by decide, by decide⟩

/-- C3: the translator returns `none` exactly on queries outside
`[0, transcript_length)`, returns an integer on every in-range query, and in
particular rejects `-1` and `transcript_length`. -/
theorem claim_C3_not_found_iff (q : Int) (im : List (Int × Int)) (rs L : Int) :
    (translate_coordinate q im rs L = none ↔ (q < 0 ∨ L ≤ q)) ∧
    ((translate_coordinate q im rs L).isSome ↔ (0 ≤ q ∧ q < L)) ∧
    translate_coordinate (-1) im rs L = none ∧
    translate_coordinate L im rs L = none := by
  have main : ∀ q' : Int,
      (translate_coordinate q' im rs L = none ↔ (q' < 0 ∨ L ≤ q')) ∧
      ((translate_coordinate q' im rs L).isSome ↔ (0 ≤ q' ∧ q' < L)) := by
    intro q'
    by_cases h : L ≤ q' ∨ q' < 0
    · rw [show translate_coordinate q' im rs L = none by
        unfold translate_coordinate; rw [if_pos h]]
      simp
      omega
    · have h0 : 0 ≤ q' := by omega
      have hL : q' < L := by omega
      rw [translate_eq_core q' im rs L h0 hL]
      simp
      omega
  exact ⟨(main q).1, (main q).2, ((main (-1)).1).mpr (by omega), ((main L).1).mpr (by omega)⟩

/-- C6: the index map produced from any CIGAR string is sorted by
monotonically non-decreasing anchor index. -/
theorem claim_C6_anchors_sorted (cigar : List Char) :
    List.Pairwise (fun x y => x.1 ≤ y.1) (make_index_map cigar) :=
  mima_pairwise (cigar_to_operators cigar) 0 0

/-- C8: concrete cases from the spec: CIGAR `8M7D6M2I2M11D7M` with
`ref_start = 3` has transcript length 25, index map
`[(7, 7), (13, -2), (17, 11)]`, and translates the queries
0, 13, 14, 15, 16, 24 to 3, 23, 23, 23, 24, 43; CIGAR `2M2X2I2M` has index
map `[(3, -2)]`. -/
theorem claim_C8_concrete_cases :
    get_length "8M7D6M2I2M11D7M".toList = 25 ∧
    make_index_map "8M7D6M2I2M11D7M".toList = [(7, 7), (13, -2), (17, 11)] ∧
    translate_coordinate 0 (make_index_map "8M7D6M2I2M11D7M".toList) 3 25 = some 3 ∧
    translate_coordinate 13 (make_index_map "8M7D6M2I2M11D7M".toList) 3 25 = some 23 ∧
    translate_coordinate 14 (make_index_map "8M7D6M2I2M11D7M".toList) 3 25 = some 23 ∧
    translate_coordinate 15 (make_index_map "8M7D6M2I2M11D7M".toList) 3 25 = some 23 ∧
    translate_coordinate 16 (make_index_map "8M7D6M2I2M11D7M".toList) 3 25 = some 24 ∧
    translate_coordinate 24 (make_index_map "8M7D6M2I2M11D7M".toList) 3 25 = some 43 ∧
    make_index_map "2M2X2I2M".toList = [(3, -2)] := by
  refine ⟨by decide, by decide, by decide, by decide, by decide, by decide, by decide,
    by decide, by decide⟩

/-- C2 (amended): for a CIGAR that does not begin with an I or D operator, a
query strictly inside the span of an insertion entry `(a, b)` (`b < 0`, so the
entry stems from an I or S operator of length `-b`, and `a < q ≤ a - b`)
translates to the same reference coordinate as the boundary query `a`,
provided additionally that `0 ≤ a` and that no other index-map entry shares
the anchor `a`. -/
theorem claim_C2_insertion_left_aligned (cigar : List Char) (rs a b q : Int)
    (hfirst : ∀ p ∈ (cigar_to_operators cigar).head?, p.2 ≠ 'I' ∧ p.2 ≠ 'D')
    (hmem : (a, b) ∈ make_index_map cigar) (hb : b < 0)
    (huniq : ∀ b', (a, b') ∈ make_index_map cigar → b' = b)
    (ha0 : 0 ≤ a) (haq : a < q) (hspan : q ≤ a - b)
    (hq : q < (get_length cigar : Int)) :
    translate_coordinate q (make_index_map cigar) rs (get_length cigar) =
      translate_coordinate a (make_index_map cigar) rs (get_length cigar) := by
  have hbq := sem_bridge_cigar cigar rs q (by omega) hq
  have hba := sem_bridge_cigar cigar rs a ha0 (by omega)
  have hmem' : (a, b) ∈ make_index_map_aux (cigar_to_operators cigar) 0 0 := hmem
  have huniq' : ∀ b', (a, b') ∈ make_index_map_aux (cigar_to_operators cigar) 0 0 → b' = b :=
    huniq
  have hspan' := sem_ins_span (cigar_to_operators cigar) 0 0 rs a b q hmem' hb huniq'
    ha0 haq hspan
  rw [sub_zero, sub_zero] at hspan'
  rw [translate_eq_core q _ rs _ (by omega) hq,
    translate_eq_core a _ rs _ ha0 (by omega)]
  rw [← hbq, ← hba]
  exact hspan'

/-- Witness for C2 on the CIGAR `3M2I3M` with its insertion entry `(2, -2)`
and the interior query `q = 3`. -/
theorem claim_C2_witness :
    translate_coordinate 3 (make_index_map "3M2I3M".toList) 0
        (get_length "3M2I3M".toList) =
      translate_coordinate 2 (make_index_map "3M2I3M".toList) 0
        (get_length "3M2I3M".toList) := by
  refine claim_C2_insertion_left_aligned "3M2I3M".toList 0 2 (-2) 3 ?_ ?_ (by decide)
    ?_ (by decide) (by decide) (by decide) (by decide)
  · intro p hp
    have h : (cigar_to_operators "3M2I3M".toList).head? = some (3, 'M') := by decide
    rw [h] at hp
    simp only [Option.mem_some_iff] at hp
    subst hp
    exact ⟨by decide, by decide⟩
  · have h : make_index_map "3M2I3M".toList = [((2 : Int), (-2 : Int))] := by decide
    rw [h]
    exact List.mem_singleton.mpr rfl
  · intro b' hb'
    have h : make_index_map "3M2I3M".toList = [((2 : Int), (-2 : Int))] := by decide
    rw [h] at hb'
    simp only [List.mem_singleton, Prod.mk.injEq] at hb'
    exact hb'.2

/-- C2 counterexample: the CIGAR `3M2D2I3M` does not begin with I or D, its
index map is `[(2, 2), (2, -2)]`, the entry `(2, -2)` comes from the
2-base insertion whose span contains the in-range query `q = 3`
(`2 < 3 ≤ 2 + 2`), yet the code translates `q = 3` to 4 and the boundary
query `a = 2` to 2: the deletion entry sharing the anchor makes the two
results differ. -/
theorem claim_C2_counterexample :
    (cigar_to_operators "3M2D2I3M".toList).head? = some (3, 'M') ∧
    make_index_map "3M2D2I3M".toList = [(2, 2), (2, -2)] ∧
    get_length "3M2D2I3M".toList = 8 ∧
    translate_coordinate 3 (make_index_map "3M2D2I3M".toList) 0 8 = some 4 ∧
    translate_coordinate 2 (make_index_map "3M2D2I3M".toList) 0 8 = some 2 ∧
    translate_coordinate 3 (make_index_map "3M2D2I3M".toList) 0 8 ≠
      translate_coordinate 2 (make_index_map "3M2D2I3M".toList) 0 8 := by
  refine ⟨by decide, by decide, by decide, by decide, by decide, by decide⟩

/-- C9: for a CIGAR that does not begin with an I or D operator, the
translated coordinate is monotonically non-decreasing in the query over the
in-range window. -/
theorem claim_C9_monotone (cigar : List Char) (rs q1 q2 : Int)
    (hfirst : ∀ p ∈ (cigar_to_operators cigar).head?, p.2 ≠ 'I' ∧ p.2 ≠ 'D')
    (h0 : 0 ≤ q1) (h12 : q1 ≤ q2) (h2 : q2 < (get_length cigar : Int)) :
    ∃ v1 v2,
      translate_coordinate q1 (make_index_map cigar) rs (get_length cigar) = some v1 ∧
      translate_coordinate q2 (make_index_map cigar) rs (get_length cigar) = some v2 ∧
      v1 ≤ v2 := by
  have hb1 := sem_bridge_cigar cigar rs q1 h0 (by omega)
  have hb2 := sem_bridge_cigar cigar rs q2 (by omega) h2
  refine ⟨core q1 (make_index_map cigar) rs, core q2 (make_index_map cigar) rs,
    translate_eq_core q1 _ rs _ h0 (by omega),
    translate_eq_core q2 _ rs _ (by omega) h2, ?_⟩
  exact sem_mono (cigar_to_operators cigar) rs q1 q2 _ _ h0 h12 hb1 hb2

/-- Witness for C9 on the CIGAR `8M7D6M2I2M11D7M` with `ref_start = 3`,
queries 13 and 16. -/
theorem claim_C9_witness :
    ∃ v1 v2,
      translate_coordinate 13 (make_index_map "8M7D6M2I2M11D7M".toList) 3
          (get_length "8M7D6M2I2M11D7M".toList) = some v1 ∧
      translate_coordinate 16 (make_index_map "8M7D6M2I2M11D7M".toList) 3
          (get_length "8M7D6M2I2M11D7M".toList) = some v2 ∧
      v1 ≤ v2 := by
  refine claim_C9_monotone "8M7D6M2I2M11D7M".toList 3 13 16 ?_ (by decide) (by decide)
    (by decide)
  intro p hp
  have h : (cigar_to_operators "8M7D6M2I2M11D7M".toList).head? = some (8, 'M') := by decide
  rw [h] at hp
  simp only [Option.mem_some_iff] at hp
  subst hp
  exact ⟨by decide, by decide⟩

/-- C10: a CIGAR whose first parsed operator is a soft clip `S` of length
`L ≥ 1` produces a first index-map entry anchored at `-1`, and every query
inside the leading clip (`0 ≤ q ≤ L - 1`) translates to `ref_start - 1`. -/
theorem claim_C10_leading_softclip (cigar : List Char) (rest : List (Nat × Char))
    (L : Nat) (rs q : Int)
    (hparse : cigar_to_operators cigar = (L, 'S') :: rest)
    (hL : 1 ≤ L) (h0 : 0 ≤ q) (hq : q ≤ (L : Int) - 1) :
    (make_index_map cigar).head? = some (-1, -(L : Int)) ∧
    translate_coordinate q (make_index_map cigar) rs (get_length cigar) =
      some (rs - 1) := by
  have hLen := get_length_eq_tlenI cigar
  have htl : tlenI (cigar_to_operators cigar) = (L : Int) + tlenI rest := by
    rw [hparse]
    simp only [tlenI]
    rw [if_neg (by decide)]
  have hpos := tlenI_nonneg rest
  have hrange : q < (get_length cigar : Int) := by omega
  constructor
  · rw [make_index_map, hparse]
    simp only [make_index_map_aux]
    rw [if_neg (by decide), if_neg (by decide), if_pos (by decide)]
    norm_num
  · rw [translate_eq_core q _ rs _ h0 hrange]
    have hb := sem_bridge_cigar cigar rs q h0 hrange
    rw [← hb, hparse]
    simp only [sem]
    rw [if_neg (by decide), if_neg (by decide), if_pos (by decide),
      if_pos (by omega : q < (L : Int))]

/-- Witness for C10 on the CIGAR `2S3M` with `ref_start = 5` and `q = 1`. -/
theorem claim_C10_witness :
    (make_index_map "2S3M".toList).head? = some (-1, -(2 : Int)) ∧
    translate_coordinate 1 (make_index_map "2S3M".toList) 5
      (get_length "2S3M".toList) = some (5 - 1) := by
  have h := claim_C10_leading_softclip "2S3M".toList [(3, 'M')] 2 5 1 (by decide)
    (by decide) (by decide) (by decide)
  simpa using h

/-- C4: `make_index_map` computes exactly the specification-worded emission:
left-to-right processing of the parsed operators with both counters starting
at 0, emitting `(trans_size - 1, +length)` for D/N, `(trans_size - 1,
-length)` for I/S, advancing both counters for M/=/X and nothing for H/P, in
emission order. -/
theorem claim_C4_index_map_algorithm (cigar : List Char) :
    make_index_map cigar = index_map_spec (cigar_to_operators cigar) 0 0 := by
  suffices h : ∀ (ops : List (Nat × Char)) (refsz t0 : Int),
      make_index_map_aux ops refsz t0 = index_map_spec ops refsz t0 from h _ 0 0
  intro ops
  induction ops with
  | nil => intro refsz t0; rfl
  | cons hd rest ih =>
      obtain ⟨s, c⟩ := hd
      intro refsz t0
      simp only [make_index_map_aux, index_map_spec]
      by_cases h1 : c = 'M' ∨ c = '=' ∨ c = 'X'
      · rw [if_pos (by simpa using h1), if_pos h1, ih]
      · rw [if_neg (by simpa using h1), if_neg h1]
        by_cases h2 : c = 'D' ∨ c = 'N'
        · rw [if_pos (by simpa using h2), if_pos h2, ih]
        · rw [if_neg (by simpa using h2), if_neg h2]
          by_cases h3 : c = 'I' ∨ c = 'S'
          · rw [if_pos (by simpa using h3), if_pos h3, ih]
          · rw [if_neg (by simpa using h3), if_neg h3, ih]

/-- C5: `get_length` equals the sum of the lengths of the parsed operators
whose code is in {M, I, S, =, X}, and appending trailing garbage (characters
that are not operator codes) after the CIGAR leaves the value unchanged. -/
theorem claim_C5_transcript_length (cigar g : List Char)
    (hg : ∀ ch ∈ g, ch ∉ opCodes) :
    get_length cigar =
      (((cigar_to_operators cigar).filter
          (fun o => decide (o.2 ∈ (['M', 'I', 'S', '=', 'X'] : List Char)))).map
        Prod.fst).sum ∧
    get_length (cigar ++ g) = get_length cigar := by
  constructor
  · unfold get_length
    have hfe : (cigar_to_operators cigar).filter
          (fun o => decide (o.2 ∉ (['D', 'N', 'H', 'P'] : List Char))) =
        (cigar_to_operators cigar).filter
          (fun o => decide (o.2 ∈ (['M', 'I', 'S', '=', 'X'] : List Char))) := by
      apply List.filter_congr
      intro o ho
      have hcode := scan_codes cigar none o ho
      simp only [opCodes, List.mem_cons, List.not_mem_nil, or_false] at hcode
      rcases hcode with h | h | h | h | h | h | h | h | h <;> rw [h] <;> decide
    rw [hfe]
  · unfold get_length cigar_to_operators
    rw [scan_append_no_opcode cigar g hg none]

/-- Witness for C5 with CIGAR `3M1` and appended garbage `2Q`. -/
theorem claim_C5_witness :
    get_length "3M1".toList =
      (((cigar_to_operators "3M1".toList).filter
          (fun o => decide (o.2 ∈ (['M', 'I', 'S', '=', 'X'] : List Char)))).map
        Prod.fst).sum ∧
    get_length ("3M1".toList ++ "2Q".toList) = get_length "3M1".toList :=
  claim_C5_transcript_length "3M1".toList "2Q".toList (by decide)

/-- C7: the parser returns, left to right, one (length, code) pair for every
maximal digit run immediately followed by an operator code, silently ignoring
every other character — it agrees with the specification-worded extractor
`specExtract` on every input — and it returns the empty sequence on the empty
string and on any string containing no operator-code character. -/
theorem claim_C7_parser_contract (s : List Char) :
    cigar_to_operators s = specExtract s ∧
    cigar_to_operators ([] : List Char) = [] ∧
    ((∀ ch ∈ s, ch ∉ opCodes) → cigar_to_operators s = []) :=
  ⟨cigar_to_operators_eq_specExtract s, rfl,
    fun hs => scan_of_no_opcode s hs none⟩

/-- Witness for C7 on the fully non-matching string `ab12`. -/
theorem claim_C7_witness :
    cigar_to_operators "ab12".toList = specExtract "ab12".toList ∧
    cigar_to_operators ([] : List Char) = [] ∧
    cigar_to_operators "ab12".toList = [] :=
  ⟨(claim_C7_parser_contract "ab12".toList).1,
    (claim_C7_parser_contract "ab12".toList).2.1,
    (claim_C7_parser_contract "ab12".toList).2.2 (by decide)⟩
